import Mathlib

/-!
Verification of the anonymization engine of `src/services/AnonymizationService.ts`.

The engine is a pure, synchronous pipeline over text.  We embed text as
`List Char` (one element per Unicode code point) and embed each JavaScript
regular expression of the source as an explicit matcher
`List Char → Option Nat` returning the length of the (unique, leftmost,
greedy-with-backtracking) match anchored at the head of the list, mirroring
the semantics of the concrete regex it is compiled from.  `String.replace`
with a global regex is embedded as `scanRepl`, which scans positions left to
right and replaces non-overlapping matches, exactly as JavaScript's
`String.prototype.replace` does for the patterns at hand (none of which can
match the empty string).  `new Date().getFullYear()` is modelled as an
explicit `currentYear : Nat` parameter.
-/

/-- Length of the maximal run of characters satisfying `p` at the head. -/
def runLen (p : Char → Bool) (s : List Char) : Nat :=
  (s.takeWhile p).length

/-- Largest `j` with `1 ≤ j ≤ hi` satisfying `p`, searching downward.
Used to embed greedy backtracking of a bounded quantifier. -/
def searchDown (p : Nat → Bool) : Nat → Option Nat
  | 0 => none
  | j + 1 => if p (j + 1) then some (j + 1) else searchDown p j

/-- Global leftmost non-overlapping regex replacement, as JavaScript's
`String.prototype.replace` with a `g`-flagged pattern that never matches the
empty string: at each position try the anchored matcher; on a match of
length `n + 1` emit the replacement of the matched slice and resume after
it, otherwise keep the character and move one position right. -/
def scanReplF (mlen : List Char → Option Nat) (repl : List Char → List Char) :
    Nat → List Char → List Char
  | 0, s => s
  | _ + 1, [] => []
  | f + 1, c :: cs =>
    match mlen (c :: cs) with
    | some (n + 1) =>
        repl ((c :: cs).take (n + 1)) ++ scanReplF mlen repl f ((c :: cs).drop (n + 1))
    | _ => c :: scanReplF mlen repl f cs

/-- The scan itself: fuelled by the input length, which always suffices
since every step consumes at least one character. -/
def scanRepl (mlen : List Char → Option Nat) (repl : List Char → List Char)
    (s : List Char) : List Char := scanReplF mlen repl s.length s

/-- Number of matches found by the same scan (JavaScript `str.match(re).length`
for a global regex, `0` when `match` returns `null`). -/
def countMF (mlen : List Char → Option Nat) : Nat → List Char → Nat
  | 0, _ => 0
  | _ + 1, [] => 0
  | f + 1, c :: cs =>
    match mlen (c :: cs) with
    | some (n + 1) => 1 + countMF mlen f ((c :: cs).drop (n + 1))
    | _ => countMF mlen f cs

def countM (mlen : List Char → Option Nat) (s : List Char) : Nat :=
  countMF mlen s.length s

/-- JavaScript `regex.test(str)`: does the scan find any match? -/
def testM (mlen : List Char → Option Nat) : List Char → Bool
  | [] => false
  | c :: cs =>
    match mlen (c :: cs) with
    | some (_ + 1) => true
    | _ => testM mlen cs

/-- JavaScript `String.prototype.includes`: substring containment. -/
def strIncludes (pat : List Char) : List Char → Bool
  | [] => pat.isPrefixOf []
  | c :: cs => pat.isPrefixOf (c :: cs) || strIncludes pat cs

/-- JavaScript `str.match(re)` without the `g` flag: the leftmost match. -/
def firstMatch (mlen : List Char → Option Nat) : List Char → Option (List Char)
  | [] => none
  | c :: cs =>
    match mlen (c :: cs) with
    | some (n + 1) => some ((c :: cs).take (n + 1))
    | _ => firstMatch mlen cs

/-- Anchored matcher for a literal pattern (the source builds
`new RegExp(escapeRegex(title), 'g')`, i.e. a literal global pattern). -/
def litLen (t : List Char) (s : List Char) : Option Nat :=
  if t.isPrefixOf s then some t.length else none

/-- JavaScript global replacement of a literal pattern.  An empty pattern
matches (emptily) at every position including both ends, so the replacement
is interleaved everywhere, as in JavaScript. -/
def replaceLiteral (t r s : List Char) : List Char :=
  if t = [] then r ++ s.flatMap (fun c => c :: r)
  else scanRepl (litLen t) (fun _ => r) s

/-- Decimal digit character for `d < 10` (used to embed JavaScript number
to string conversion). -/
def digitChar (d : Nat) : Char :=
  if d = 0 then '0' else if d = 1 then '1' else if d = 2 then '2'
  else if d = 3 then '3' else if d = 4 then '4' else if d = 5 then '5'
  else if d = 6 then '6' else if d = 7 then '7' else if d = 8 then '8' else '9'

/-- Decimal digits of a natural number (JavaScript `String(n)`). -/
def natDigitsF : Nat → Nat → List Char
  | 0, n => [digitChar n]
  | f + 1, n =>
    if n < 10 then [digitChar n]
    else natDigitsF f (n / 10) ++ [digitChar (n % 10)]

def natDigits (n : Nat) : List Char := natDigitsF n n

/-- JavaScript `String(d)` for a possibly negative integer. -/
def intDigits (d : Int) : List Char :=
  if d < 0 then '-' :: natDigits (-d).toNat else natDigits d.toNat

/-- JavaScript `parseInt` on a string of decimal digits. -/
def parseDigits (ds : List Char) : Nat :=
  ds.foldl (fun acc c => acc * 10 + (c.toNat - 48)) 0

/-! ## Character classes of the source regexes -/

/-- The class `[一-龯぀-ゟ゠-ヿ]` (kanji, hiragana,
katakana) used by the `companyName` and `productName` rules. -/
def isJaChar (c : Char) : Bool :=
  (0x4e00 ≤ c.toNat && c.toNat ≤ 0x9faf) ||
  (0x3040 ≤ c.toNat && c.toNat ≤ 0x309f) ||
  (0x30a0 ≤ c.toNat && c.toNat ≤ 0x30ff)

/-- The class `[一-龯]` (kanji) used by `personName` and `address`. -/
def isKanji (c : Char) : Bool :=
  0x4e00 ≤ c.toNat && c.toNat ≤ 0x9faf

/-- JavaScript `\w`. -/
def isWordChar (c : Char) : Bool :=
  (65 ≤ c.toNat && c.toNat ≤ 90) || (97 ≤ c.toNat && c.toNat ≤ 122) ||
  (48 ≤ c.toNat && c.toNat ≤ 57) || c.toNat == 95

/-- JavaScript `\s` (whitespace class). -/
def isSpaceJS (c : Char) : Bool :=
  c.toNat == 32 || c.toNat == 9 || c.toNat == 10 || c.toNat == 11 ||
  c.toNat == 12 || c.toNat == 13 || c.toNat == 160 || c.toNat == 0x1680 ||
  (0x2000 ≤ c.toNat && c.toNat ≤ 0x200a) || c.toNat == 0x2028 ||
  c.toNat == 0x2029 || c.toNat == 0x202f || c.toNat == 0x205f ||
  c.toNat == 0x3000 || c.toNat == 0xfeff

/-- JavaScript `.` (anything but a line terminator). -/
def isDotChar (c : Char) : Bool :=
  !(c.toNat == 10 || c.toNat == 13 || c.toNat == 0x2028 || c.toNat == 0x2029)

/-! ## The seven standing rules (`anonymizationRules` in the source) -/

/-- The literal `株式会社`. -/
def kabushiki : List Char := "株式会社".toList

/-- The corporate-suffix group `(Inc\.|Corp\.|Co\.,?\s*Ltd\.?)`:
alternatives in order, `,?` and `\.?` greedy, `\s*` maximal (its follower
`Ltd` starts with a non-space, so no backtracking can arise). -/
def corpSuffixLen (s : List Char) : Option Nat :=
  if "Inc.".toList.isPrefixOf s then some 4
  else if "Corp.".toList.isPrefixOf s then some 5
  else if "Co.".toList.isPrefixOf s then
    (let k := if s[3]? = some ',' then 1 else 0
     let w := runLen isSpaceJS (s.drop (3 + k))
     if "Ltd".toList.isPrefixOf (s.drop (3 + k + w)) then
       some (3 + k + w + 3 + (if s[3 + k + w + 3]? = some '.' then 1 else 0))
     else none)
  else none

/-- Third alternative of the company rule, `[ja]+\s*(Inc\.|…)`, backtracking
the greedy `[ja]+` from `j` characters downward. -/
def companyAlt3 (s : List Char) : Nat → Option Nat
  | 0 => none
  | j + 1 =>
    (let w := runLen isSpaceJS (s.drop (j + 1))
     (corpSuffixLen (s.drop (j + 1 + w))).map (fun m => j + 1 + w + m))
    <|> companyAlt3 s j

/-- Anchored matcher for the `companyName` rule
`/株式会社[ja]+|[ja]+株式会社|[ja]+\s*(Inc\.|Corp\.|Co\.,?\s*Ltd\.?)/`. -/
def matchCompanyAt (s : List Char) : Option Nat :=
  (if kabushiki.isPrefixOf s then
    (let k := runLen isJaChar (s.drop 4)
     if 1 ≤ k then some (4 + k) else none)
   else none)
  <|>
  (let k := runLen isJaChar s
   if 1 ≤ k then
     (searchDown (fun j => kabushiki.isPrefixOf (s.drop j)) k).map (fun j => j + 4)
   else none)
  <|>
  (let k := runLen isJaChar s
   if 1 ≤ k then companyAlt3 s k else none)

/-- The character class `[田中|佐藤|鈴木|高橋|渡辺|伊藤|山本|中村|小林|加藤]`
(a class, so the `|` are literal members). -/
def surnameChars : List Char := "田中|佐藤|鈴木|高橋|渡辺|伊藤|山本|中村|小林|加藤".toList

/-- The character class `[様|さん|氏|社長|部長|課長|主任]`. -/
def honorificChars : List Char := "様|さん|氏|社長|部長|課長|主任".toList

/-- Anchored matcher for the `personName` rule
`/[surname class][一-龯]{1,3}[honorific class]/`,
backtracking the greedy `{1,3}` downward. -/
def matchPersonAt (s : List Char) : Option Nat :=
  match s with
  | [] => none
  | c :: cs =>
    if surnameChars.contains c then
      (searchDown
        (fun n =>
          decide (n ≤ runLen isKanji cs) &&
          (match cs[n]? with
           | some d => honorificChars.contains d
           | none => false)) 3).map (fun n => n + 2)
    else none

/-- Anchored matcher for the `email` rule `/[\w\.-]+@[\w\.-]+\.\w+/`.
The class `[\w\.-]` excludes `@`, so the first `+` stops exactly at `@`;
after it the greedy second `+` backtracks to the last `.` that is followed
by at least one `\w` character. -/
def matchEmailAt (s : List Char) : Option Nat :=
  (let k := runLen (fun c => isWordChar c || c == '.' || c == '-') s
   if 1 ≤ k && s[k]? = some '@' then
     (let t := s.drop (k + 1)
      let m := runLen (fun c => isWordChar c || c == '.' || c == '-') t
      if 1 ≤ m then
        (searchDown
          (fun j =>
            (t[j]? = some '.' : Bool) && decide (1 ≤ runLen isWordChar (t.drop (j + 1))))
          (m - 1)).map (fun j => k + 1 + j + 1 + runLen isWordChar (t.drop (j + 1)))
      else none)
   else none)

/-- Anchored matcher for the `phone` rule
`/0\d{1,4}-\d{1,4}-\d{4}|0\d{9,10}/`.  In the first alternative a greedy
`\d{m,n}` followed by `-` can only stop at the end of the digit run. -/
def matchPhoneAt (s : List Char) : Option Nat :=
  if s[0]? = some '0' then
    (let r1 := runLen Char.isDigit (s.drop 1)
     (if 1 ≤ r1 && r1 ≤ 4 && s[1 + r1]? = some '-' then
        (let r2 := runLen Char.isDigit (s.drop (1 + r1 + 1))
         if 1 ≤ r2 && r2 ≤ 4 && s[1 + r1 + 1 + r2]? = some '-' then
           (if 4 ≤ runLen Char.isDigit (s.drop (1 + r1 + 1 + r2 + 1)) then
              some (1 + r1 + 1 + r2 + 1 + 4)
            else none)
         else none)
      else none)
     <|>
     (if 9 ≤ r1 then some (1 + min r1 10) else none))
  else none

/-- Length consumed by `(\d{1,3},?)+`: repeatedly take up to three digits
and an optional comma; every backtrack of the group leaves a digit or comma
as the next character, which never helps the followers (`億|万|円`), so the
greedy parse is the unique relevant one. -/
def numSeqF : Nat → List Char → Nat
  | 0, _ => 0
  | f + 1, s =>
    let d := min 3 (runLen Char.isDigit s)
    if d = 0 then 0
    else
      let k := if s[d]? = some ',' then 1 else 0
      d + k + numSeqF f (s.drop (d + k))

def numSeq (s : List Char) : Nat := numSeqF s.length s

/-- Tail `lit\d+(\.\d+)?%` shared by the third and fourth alternatives of
the `specificNumbers` rule. -/
def pctTail (lit : List Char) (s : List Char) : Option Nat :=
  if lit.isPrefixOf s then
    (let t := s.drop lit.length
     let d := runLen Char.isDigit t
     if 1 ≤ d then
       (if t[d]? = some '%' then some (lit.length + d + 1)
        else if t[d]? = some '.' then
          (let f := runLen Char.isDigit (t.drop (d + 1))
           if 1 ≤ f && t[d + 1 + f]? = some '%' then
             some (lit.length + d + 1 + f + 1)
           else none)
        else none)
     else none)
  else none

/-- Anchored matcher for the `specificNumbers` rule
`/(\d{1,3},?)+(億|万)?円の売上|売上(\d{1,3},?)+(億|万)?円|シェア\d+(\.\d+)?%|前年比\d+(\.\d+)?%/`. -/
def matchSpecificAt (s : List Char) : Option Nat :=
  (let n := numSeq s
   if 1 ≤ n then
     (let u := if s[n]? = some '億' || s[n]? = some '万' then 1 else 0
      if "円の売上".toList.isPrefixOf (s.drop (n + u)) then some (n + u + 4) else none)
   else none)
  <|>
  (if "売上".toList.isPrefixOf s then
     (let t := s.drop 2
      let n := numSeq t
      if 1 ≤ n then
        (let u := if t[n]? = some '億' || t[n]? = some '万' then 1 else 0
         if t[n + u]? = some '円' then some (2 + n + u + 1) else none)
      else none)
   else none)
  <|> pctTail "シェア".toList s
  <|> pctTail "前年比".toList s

/-- Lazy `.*?` search: try the continuation `g` at the current position,
else (if the current character is matched by `.`) advance one character. -/
def lazyFind (g : List Char → Option Nat) : List Char → Option Nat
  | [] => g []
  | c :: cs =>
    match g (c :: cs) with
    | some n => some n
    | none => if isDotChar c then (lazyFind g cs).map (fun m => m + 1) else none

/-- Continuation `.*?[一-龯\d\-]+` closing the address rule. -/
def addrTail2 (s : List Char) : Option Nat :=
  lazyFind
    (fun t =>
      let f := runLen (fun c => isKanji c || c.isDigit || c == '-') t
      if 1 ≤ f then some f else none) s

/-- Continuation `[一-龯]+[都道府県].*?[一-龯\d\-]+`:
greedy kanji run backtracking from `j` down to `1` looking for a
prefecture-class character, then the closing tail. -/
def addrSearchC (s : List Char) : Nat → Option Nat
  | 0 => none
  | j + 1 =>
    (match s[j + 1]? with
     | some ch =>
        if ("都道府県".toList.contains ch : Bool) then
          (addrTail2 (s.drop (j + 2))).map (fun m => j + 2 + m)
        else none
     | none => none)
    <|> addrSearchC s j

/-- The part of the address rule after the postal code. -/
def addrStage1 (s : List Char) : Option Nat :=
  let k := runLen isKanji s
  if 1 ≤ k then addrSearchC s k else none

/-- Anchored matcher for the `address` rule
`/〒\d{3}-\d{4}.*?[一-龯]+[都道府県].*?[一-龯\d\-]+/`. -/
def matchAddressAt (s : List Char) : Option Nat :=
  if s[0]? = some '〒' && decide (3 ≤ runLen Char.isDigit (s.drop 1)) &&
     s[4]? = some '-' && decide (4 ≤ runLen Char.isDigit (s.drop 5)) then
    (lazyFind addrStage1 (s.drop 9)).map (fun m => 9 + m)
  else none

/-- Anchored matcher for the `productName` rule
`/「[一-龯぀-ゟ゠-ヿ\w\s]+」/`; the closer `」` is
outside the class, so only the maximal run is relevant. -/
def matchProductAt (s : List Char) : Option Nat :=
  if s[0]? = some '「' then
    (let k := runLen (fun c => isJaChar c || isWordChar c || isSpaceJS c) (s.drop 1)
     if 1 ≤ k && s[1 + k]? = some '」' then some (k + 2) else none)
  else none

/-- Replacement of the `specificNumbers` rule (a function of the match). -/
def specificRepl (m : List Char) : List Char :=
  if strIncludes "億円".toList m then "数十億円規模の売上".toList
  else if strIncludes "万円".toList m then "数千万円規模の売上".toList
  else if strIncludes "シェア".toList m then "業界トップクラスのシェア".toList
  else if strIncludes "前年比".toList m then "前年比大幅増".toList
  else "非公開".toList

/-- Replacement of the `productName` rule (a function of the match). -/
def productRepl (m : List Char) : List Char :=
  if strIncludes "システム".toList m || strIncludes "ソフト".toList m then
    "「独自開発システム」".toList
  else if strIncludes "サービス".toList m then "「自社サービス」".toList
  else "「自社製品」".toList

/-- The rule table `anonymizationRules`, in the source's insertion order:
key, anchored matcher, replacement. -/
def anonymizationRules :
    List (String × (List Char → Option Nat) × (List Char → List Char)) :=
  [("companyName", matchCompanyAt, fun _ => "某大手企業".toList),
   ("personName", matchPersonAt, fun _ => "担当者".toList),
   ("email", matchEmailAt, fun _ => "contact@example.com".toList),
   ("phone", matchPhoneAt, fun _ => "0XX-XXXX-XXXX".toList),
   ("specificNumbers", matchSpecificAt, specificRepl),
   ("address", matchAddressAt, fun _ => "本社所在地".toList),
   ("productName", matchProductAt, productRepl)]

/-- The second stage of `anonymize`: the seven standing rules applied in
table order, each as a global replace over the then-current text. -/
def applyStandardRules (s : List Char) : List Char :=
  anonymizationRules.foldl (fun t r => scanRepl r.2.1 r.2.2 t) s

/-! ## obscureNumbers -/

/-- Anchored matcher for `/(\d{4,})(万円)/`; the greedy `\d{4,}` can only
stop at the end of the digit run since `万` is not a digit. -/
def matchMoneyAt (s : List Char) : Option Nat :=
  let r := runLen Char.isDigit s
  if 4 ≤ r && s[r]? = some '万' && s[r + 1]? = some '円' then some (r + 2)
  else none

/-- Replacement callback for the monetary banding: `parseInt` of the digit
group, then band (or keep the match when below both thresholds). -/
def moneyRepl (m : List Char) : List Char :=
  let v := parseDigits (m.takeWhile Char.isDigit)
  if 10000 ≤ v then "数億円".toList
  else if 1000 ≤ v then "数千万円".toList
  else m

/-- Anchored matcher for `/(\d{2,3})(\.\d+)?%/`.  A digit run longer than
three leaves a digit after the greedy `{2,3}`, which can match neither `.`
nor `%`, so a match requires the whole run to have length two or three. -/
def matchPctAt (s : List Char) : Option Nat :=
  let r := runLen Char.isDigit s
  if r = 2 || r = 3 then
    (if s[r]? = some '%' then some (r + 1)
     else if s[r]? = some '.' then
       (let f := runLen Char.isDigit (s.drop (r + 1))
        if 1 ≤ f && s[r + 1 + f]? = some '%' then some (r + 1 + f + 1) else none)
     else none)
  else none

/-- Replacement callback for the percentage banding: `parseInt` of the
integer digit group, then the five-range table. -/
def pctRepl (m : List Char) : List Char :=
  let v := parseDigits (m.takeWhile Char.isDigit)
  if 80 ≤ v then "80%以上".toList
  else if 50 ≤ v then "50%以上".toList
  else if 30 ≤ v then "約30-50%".toList
  else if 10 ≤ v then "10%以上".toList
  else "10%未満".toList

/-- `obscureNumbers`: monetary banding pass then percentage banding pass. -/
def obscureNumbers (content : List Char) : List Char :=
  scanRepl matchPctAt pctRepl (scanRepl matchMoneyAt moneyRepl content)

/-! ## generalizeDates -/

/-- Anchored matcher for `/20\d{2}年\d{1,2}月\d{1,2}日/`; each greedy
`\d{1,2}` followed by a non-digit literal can only stop at its run end. -/
def matchFullDateAt (s : List Char) : Option Nat :=
  if s[0]? = some '2' && s[1]? = some '0' &&
     (match s[2]? with | some c => c.isDigit | none => false) &&
     (match s[3]? with | some c => c.isDigit | none => false) &&
     s[4]? = some '年' then
    (let r1 := runLen Char.isDigit (s.drop 5)
     if (r1 = 1 || r1 = 2) && s[5 + r1]? = some '月' then
       (let r2 := runLen Char.isDigit (s.drop (5 + r1 + 1))
        if (r2 = 1 || r2 = 2) && s[5 + r1 + 1 + r2]? = some '日' then
          some (5 + r1 + 1 + r2 + 1)
        else none)
     else none)
  else none

/-- Anchored matcher for the inner `/20\d{2}年\d{1,2}月/`. -/
def matchYearMonthAt (s : List Char) : Option Nat :=
  if s[0]? = some '2' && s[1]? = some '0' &&
     (match s[2]? with | some c => c.isDigit | none => false) &&
     (match s[3]? with | some c => c.isDigit | none => false) &&
     s[4]? = some '年' then
    (let r1 := runLen Char.isDigit (s.drop 5)
     if (r1 = 1 || r1 = 2) && s[5 + r1]? = some '月' then some (5 + r1 + 1)
     else none)
  else none

/-- Replacement callback of the first date pass: truncate a full date to
its leading `20\d{2}年\d{1,2}月` part, keeping the match when the inner
search fails (the source's `yearMonth ? yearMonth[0] : match`). -/
def fullDateRepl (m : List Char) : List Char :=
  match firstMatch matchYearMonthAt m with
  | some ym => ym
  | none => m

/-- Anchored matcher for `/20\d{2}年/`. -/
def matchYearAt (s : List Char) : Option Nat :=
  if s[0]? = some '2' && s[1]? = some '0' &&
     (match s[2]? with | some c => c.isDigit | none => false) &&
     (match s[3]? with | some c => c.isDigit | none => false) &&
     s[4]? = some '年' then some 5
  else none

/-- Anchored matcher for the inner `/\d{4}/`. -/
def matchFourDigitsAt (s : List Char) : Option Nat :=
  if 4 ≤ runLen Char.isDigit s then some 4 else none

/-- Replacement callback of the second date pass: `parseInt` the year
(`match.match(/\d{4}/)![0]`), subtract from the current year, and convert
to a relative expression.  The difference is a JavaScript number, hence a
signed integer here. -/
def yearRepl (currentYear : Nat) (m : List Char) : List Char :=
  let y := parseDigits ((firstMatch matchFourDigitsAt m).getD m)
  let diff : Int := (currentYear : Int) - (y : Int)
  if diff = 0 then "今年".toList
  else if diff = 1 then "昨年".toList
  else if diff = 2 then "一昨年".toList
  else if diff ≤ 5 then intDigits diff ++ "年前".toList
  else "数年前".toList

/-- `generalizeDates`: full dates truncated to year–month, then every
remaining `20\d{2}年` token relativized against the current year. -/
def generalizeDates (currentYear : Nat) (content : List Char) : List Char :=
  scanRepl matchYearAt (yearRepl currentYear)
    (scanRepl matchFullDateAt fullDateRepl content)

/-! ## Confidential records and anonymize -/

/-- One internal-knowledge record, as consumed by `anonymize`. -/
structure ConfidentialRecord where
  title : List Char
  category : String
  isConfidential : Bool
  isPublic : Bool

/-- `getGenericReplacement`: fixed lookup from category to generic label,
defaulting to `非公開情報`. -/
def getGenericReplacement (category : String) : List Char :=
  (if category = "financial" then "財務関連情報"
   else if category = "strategic" then "経営戦略情報"
   else if category = "personnel" then "人事情報"
   else if category = "technical" then "技術情報"
   else if category = "customer" then "顧客情報"
   else if category = "partner" then "パートナー情報"
   else if category = "internal" then "社内情報"
   else "非公開情報").toList

/-- `anonymize`: purge eligible confidential records (literal global
replace by the category label, in list order), apply the seven standing
rules, obscure numbers, generalize dates. -/
def anonymize (currentYear : Nat) (content : List Char)
    (companyInfo : List ConfidentialRecord) : List Char :=
  let s1 := companyInfo.foldl
    (fun t info =>
      if info.isConfidential && !info.isPublic then
        replaceLiteral info.title (getGenericReplacement info.category) t
      else t) content
  generalizeDates currentYear (obscureNumbers (applyStandardRules s1))

/-! ## Risk scorer and report -/

/-- The high-risk keyword list of `determineAnonymizationLevel` (fourteen
entries in the source). -/
def highRiskKeywords : List String :=
  ["売上", "利益", "収益", "損失",
   "戦略", "計画", "開発中", "未公開",
   "顧客リスト", "取引先", "契約",
   "特許", "技術", "ノウハウ"]

/-- Anchored matcher for `/\d{4,}万円|\d+億円/` (the monetary test). -/
def matchMoneyTestAt (s : List Char) : Option Nat :=
  (let r := runLen Char.isDigit s
   if 4 ≤ r && s[r]? = some '万' && s[r + 1]? = some '円' then some (r + 2)
   else none)
  <|>
  (let r := runLen Char.isDigit s
   if 1 ≤ r && s[r]? = some '億' && s[r + 1]? = some '円' then some (r + 2)
   else none)

/-- Anchored matcher for `/\d+%/`. -/
def matchPctTestAt (s : List Char) : Option Nat :=
  let r := runLen Char.isDigit s
  if 1 ≤ r && s[r]? = some '%' then some (r + 1) else none

/-- Anchored matcher for `/「[^」]+」/` (the proper-noun counter). -/
def matchBracketAt (s : List Char) : Option Nat :=
  if s[0]? = some '「' then
    (let k := runLen (fun c => !(c == '」')) (s.drop 1)
     if 1 ≤ k && s[1 + k]? = some '」' then some (k + 2) else none)
  else none

/-- The additive score of `determineAnonymizationLevel`. -/
def anonymizationScore (content : List Char) : Nat :=
  (highRiskKeywords.foldl
    (fun acc kw => if strIncludes kw.toList content then acc + 10 else acc) 0)
  + (if testM matchMoneyTestAt content then 20 else 0)
  + (if testM matchPctTestAt content then 10 else 0)
  + (if testM matchFullDateAt content then 5 else 0)
  + 5 * countM matchBracketAt content

/-- `determineAnonymizationLevel`: threshold the score. -/
def determineAnonymizationLevel (content : List Char) : String :=
  if 50 ≤ anonymizationScore content then "high"
  else if 20 ≤ anonymizationScore content then "medium"
  else "low"

/-- The output record of `generateAnonymizationReport`. -/
structure AnonymizationReport where
  changedCount : Nat
  removedInfo : List (List Char)
  anonymizationLevel : String
deriving DecidableEq

/-- `generateAnonymizationReport`: per-rule match counts over `original`
(the `anonymized` argument is accepted but never read by the source). -/
def generateAnonymizationReport (original anonymized : List Char) :
    AnonymizationReport :=
  let acc := anonymizationRules.foldl
    (fun (acc : Nat × List (List Char)) r =>
      let c := countM r.2.1 original
      if 0 < c then
        (acc.1 + c, acc.2 ++ [r.1.toList ++ ": ".toList ++ natDigits c ++ "件".toList])
      else acc)
    (0, [])
  { changedCount := acc.1
    removedInfo := acc.2
    anonymizationLevel := determineAnonymizationLevel original }

/-! ## Specification-side definitions used to state the claims -/

/-- Every character that any replacement emitted by the pipeline can
contain: the generic category labels, the seven rules' replacement strings,
the banding phrases, the relative-date phrases, and — because the monetary
banding can echo its match and the date passes echo digit/unit characters —
the decimal digits and the unit and bracket characters. -/
def vocabChars : List Char :=
  ("財務関連情報経営戦略人事技術顧客パートナー社内非公開某大手企業担当者" ++
   "contact@example.com0XX-" ++
   "数十億円規模の売上千万業界トップクラスのシェア前年比大幅増本社所在地" ++
   "「独自開発システム」自社サービス製品" ++
   "0123456789%以上約未満年月日今昨一").toList

/-- Is `c` a character the pipeline's replacement vocabulary can emit? -/
def replacementChar (c : Char) : Bool := c.isDigit || vocabChars.contains c

/-- The replacement strings of the seven standing rules (all branches of
the function-valued replacements included). -/
def replacementVocab : List (List Char) :=
  ["某大手企業".toList, "担当者".toList, "contact@example.com".toList,
   "0XX-XXXX-XXXX".toList, "数十億円規模の売上".toList,
   "数千万円規模の売上".toList, "業界トップクラスのシェア".toList,
   "前年比大幅増".toList, "非公開".toList, "本社所在地".toList,
   "「独自開発システム」".toList, "「自社サービス」".toList, "「自社製品」".toList]

/-- The five-range percentage table exactly as the specification states it. -/
def pctBandString (n : Nat) : List Char :=
  (if 80 ≤ n then "80%以上" else if 50 ≤ n then "50%以上"
   else if 30 ≤ n then "約30-50%" else if 10 ≤ n then "10%以上"
   else "10%未満").toList

/-- Magnitude rank of a monetary banding output: the unchanged form ranks
below `数千万円` (tens of millions), which ranks below `数億円`
(hundreds of millions). -/
def labelRank (s : List Char) : Nat :=
  if s = "数億円".toList then 2 else if s = "数千万円".toList then 1 else 0

/-- Parse the count `n` out of a `"<ruleKey>: <n>件"` report entry. -/
def entryCount (s : List Char) : Nat :=
  parseDigits (((s.dropWhile (fun ch => ch != ':')).drop 2).takeWhile Char.isDigit)

/-! ## General lemmas about the scanning engine -/

/-- Strong induction on list length. -/
theorem listLenInd {α : Type} (P : List α → Prop)
    (step : ∀ s : List α, (∀ t : List α, t.length < s.length → P t) → P s) :
    ∀ s, P s := fun s => step s (fun t _ => listLenInd P step t)
termination_by s => s.length

lemma scanReplF_irrel (mlen : List Char → Option Nat)
    (repl : List Char → List Char) :
    ∀ f g s, s.length ≤ f → s.length ≤ g →
      scanReplF mlen repl f s = scanReplF mlen repl g s := by
  intro f
  induction f with
  | zero =>
    intro g s hf _
    have hs : s = [] := List.eq_nil_of_length_eq_zero (by omega)
    subst hs
    cases g <;> rfl
  | succ f IH =>
    intro g s hf hg
    match g, s with
    | 0, s =>
      have hs : s = [] := List.eq_nil_of_length_eq_zero (by omega)
      subst hs; rfl
    | g + 1, [] => rfl
    | g + 1, c :: cs =>
      simp only [List.length_cons] at hf hg
      cases hm : mlen (c :: cs) with
      | none =>
        simp only [scanReplF, hm]
        rw [IH g cs (by omega) (by omega)]
      | some n =>
        cases n with
        | zero =>
          simp only [scanReplF, hm]
          rw [IH g cs (by omega) (by omega)]
        | succ k =>
          simp only [scanReplF, hm]
          rw [IH g ((c :: cs).drop (k + 1))
            (by simp only [List.length_drop, List.length_cons]; omega)
            (by simp only [List.length_drop, List.length_cons]; omega)]

lemma scanRepl_nil (mlen : List Char → Option Nat)
    (repl : List Char → List Char) : scanRepl mlen repl [] = [] := rfl

lemma scanRepl_match (mlen : List Char → Option Nat)
    (repl : List Char → List Char) (c : Char) (cs : List Char) (n : Nat)
    (hm : mlen (c :: cs) = some (n + 1)) :
    scanRepl mlen repl (c :: cs) =
      repl ((c :: cs).take (n + 1)) ++
        scanRepl mlen repl ((c :: cs).drop (n + 1)) := by
  show scanReplF mlen repl (cs.length + 1) (c :: cs) = _
  simp only [scanReplF, hm]
  unfold scanRepl
  congr 1
  apply scanReplF_irrel
  · simp only [List.length_drop, List.length_cons]; omega
  · exact Nat.le_refl _

lemma scanRepl_skip (mlen : List Char → Option Nat)
    (repl : List Char → List Char) (c : Char) (cs : List Char)
    (hm : mlen (c :: cs) = none ∨ mlen (c :: cs) = some 0) :
    scanRepl mlen repl (c :: cs) = c :: scanRepl mlen repl cs := by
  show scanReplF mlen repl (cs.length + 1) (c :: cs) = _
  rcases hm with hm | hm <;> simp only [scanReplF, hm] <;> rfl

lemma countMF_irrel (mlen : List Char → Option Nat) :
    ∀ f g s, s.length ≤ f → s.length ≤ g →
      countMF mlen f s = countMF mlen g s := by
  intro f
  induction f with
  | zero =>
    intro g s hf _
    have hs : s = [] := List.eq_nil_of_length_eq_zero (by omega)
    subst hs
    cases g <;> rfl
  | succ f IH =>
    intro g s hf hg
    match g, s with
    | 0, s =>
      have hs : s = [] := List.eq_nil_of_length_eq_zero (by omega)
      subst hs; rfl
    | g + 1, [] => rfl
    | g + 1, c :: cs =>
      simp only [List.length_cons] at hf hg
      cases hm : mlen (c :: cs) with
      | none =>
        simp only [countMF, hm]
        rw [IH g cs (by omega) (by omega)]
      | some n =>
        cases n with
        | zero =>
          simp only [countMF, hm]
          rw [IH g cs (by omega) (by omega)]
        | succ k =>
          simp only [countMF, hm]
          rw [IH g ((c :: cs).drop (k + 1))
            (by simp only [List.length_drop, List.length_cons]; omega)
            (by simp only [List.length_drop, List.length_cons]; omega)]

lemma countM_nil (mlen : List Char → Option Nat) : countM mlen [] = 0 := rfl

lemma countM_match (mlen : List Char → Option Nat) (c : Char)
    (cs : List Char) (n : Nat) (hm : mlen (c :: cs) = some (n + 1)) :
    countM mlen (c :: cs) = 1 + countM mlen ((c :: cs).drop (n + 1)) := by
  show countMF mlen (cs.length + 1) (c :: cs) = _
  simp only [countMF, hm]
  unfold countM
  congr 1
  apply countMF_irrel
  · simp only [List.length_drop, List.length_cons]; omega
  · exact Nat.le_refl _

lemma countM_skip (mlen : List Char → Option Nat) (c : Char) (cs : List Char)
    (hm : mlen (c :: cs) = none ∨ mlen (c :: cs) = some 0) :
    countM mlen (c :: cs) = countM mlen cs := by
  show countMF mlen (cs.length + 1) (c :: cs) = _
  rcases hm with hm | hm <;> simp only [countMF, hm] <;> rfl

lemma natDigitsF_irrel :
    ∀ f g n, n ≤ f → n ≤ g → natDigitsF f n = natDigitsF g n := by
  intro f
  induction f with
  | zero =>
    intro g n hf _
    obtain rfl : n = 0 := by omega
    cases g with
    | zero => rfl
    | succ g => simp [natDigitsF]
  | succ f IH =>
    intro g n hf hg
    match g with
    | 0 =>
      obtain rfl : n = 0 := by omega
      simp [natDigitsF]
    | g + 1 =>
      simp only [natDigitsF]
      split_ifs with hn
      · rfl
      · rw [IH g (n / 10) (by omega) (by omega)]

lemma natDigits_eq (n : Nat) :
    natDigits n = if n < 10 then [digitChar n]
      else natDigits (n / 10) ++ [digitChar (n % 10)] := by
  show natDigitsF n n = _
  match n with
  | 0 => simp [natDigitsF]
  | m + 1 =>
    simp only [natDigitsF]
    split_ifs with hn
    · rfl
    · unfold natDigits
      congr 1
      exact natDigitsF_irrel m ((m + 1) / 10) ((m + 1) / 10) (by omega) (by omega)

/-- A text in which the scan finds no match is returned unchanged. -/
lemma scan_id_of_count_zero (mlen : List Char → Option Nat)
    (repl : List Char → List Char) :
    ∀ s : List Char, countM mlen s = 0 → scanRepl mlen repl s = s := by
  refine listLenInd _ ?_
  intro s IH h
  match s with
  | [] => rfl
  | c :: cs =>
    cases hm : mlen (c :: cs) with
    | none =>
      rw [countM_skip _ _ _ (Or.inl hm)] at h
      rw [scanRepl_skip _ _ _ _ (Or.inl hm), IH cs (by simp) h]
    | some n =>
      cases n with
      | zero =>
        rw [countM_skip _ _ _ (Or.inr hm)] at h
        rw [scanRepl_skip _ _ _ _ (Or.inr hm), IH cs (by simp) h]
      | succ k => rw [countM_match _ _ _ _ hm] at h; omega

lemma digitChar_isDigit (d : Nat) : (digitChar d).isDigit = true := by
  unfold digitChar; split_ifs <;> decide

lemma digitChar_val (d : Nat) (h : d < 10) : (digitChar d).toNat - 48 = d := by
  interval_cases d <;> decide

lemma natDigits_all_digit : ∀ n, ∀ c ∈ natDigits n, c.isDigit = true := by
  intro n
  induction n using Nat.strong_induction_on with
  | _ n IH =>
    rw [natDigits_eq]
    split
    · intro c hc
      simp only [List.mem_singleton] at hc
      subst hc; exact digitChar_isDigit n
    · intro c hc
      rw [List.mem_append] at hc
      rcases hc with hc | hc
      · exact IH (n / 10) (Nat.div_lt_self (by omega) (by omega)) c hc
      · simp only [List.mem_singleton] at hc
        subst hc; exact digitChar_isDigit (n % 10)

lemma parseDigits_snoc (xs : List Char) (c : Char) :
    parseDigits (xs ++ [c]) = 10 * parseDigits xs + (c.toNat - 48) := by
  simp [parseDigits, List.foldl_append]; ring

lemma parseDigits_natDigits : ∀ n, parseDigits (natDigits n) = n := by
  intro n
  induction n using Nat.strong_induction_on with
  | _ n IH =>
    rw [natDigits_eq]
    split
    · next h =>
      show parseDigits ([] ++ [digitChar n]) = n
      rw [parseDigits_snoc, digitChar_val n h]
      simp [parseDigits]
    · next h =>
      rw [parseDigits_snoc, IH (n / 10) (Nat.div_lt_self (by omega) (by omega)),
        digitChar_val (n % 10) (Nat.mod_lt _ (by omega))]
      omega

lemma natDigits_ne_nil (n : Nat) : natDigits n ≠ [] := by
  rw [natDigits_eq]; split <;> simp

lemma natDigits_len_ge : ∀ k n, 10 ^ k ≤ n → k + 1 ≤ (natDigits n).length := by
  intro k
  induction k with
  | zero =>
    intro n _
    rw [natDigits_eq]; split <;> simp
  | succ k IH =>
    intro n hn
    have h10 : ¬ n < 10 := by
      have h1 : 1 ≤ 10 ^ k := Nat.one_le_pow _ _ (by omega)
      have : 10 ^ (k + 1) = 10 * 10 ^ k := by ring
      omega
    rw [natDigits_eq, if_neg h10]
    simp only [List.length_append, List.length_cons, List.length_nil]
    have hdiv : 10 ^ k ≤ n / 10 := by
      rw [Nat.le_div_iff_mul_le (by omega)]
      have : 10 ^ k * 10 = 10 ^ (k + 1) := by ring
      omega
    have := IH (n / 10) hdiv
    omega

lemma natDigits_len_le : ∀ k n, 1 ≤ k → n < 10 ^ k → (natDigits n).length ≤ k := by
  intro k
  induction k with
  | zero => omega
  | succ k IH =>
    intro n _ hn
    rw [natDigits_eq]
    split
    · simp
    · next h =>
      simp only [List.length_append, List.length_cons, List.length_nil]
      have hk : 1 ≤ k := by
        by_contra hk
        have hk0 : k = 0 := by omega
        subst hk0
        simp at hn; omega
      have hdiv : n / 10 < 10 ^ k := by
        rw [Nat.div_lt_iff_lt_mul (by omega)]
        have : 10 ^ (k + 1) = 10 ^ k * 10 := by ring
        omega
      have := IH (n / 10) hk hdiv
      omega

lemma takeWhile_append_all {p : Char → Bool} (xs ys : List Char)
    (h : ∀ c ∈ xs, p c) : (xs ++ ys).takeWhile p = xs ++ ys.takeWhile p := by
  induction xs with
  | nil => simp
  | cons c cs IH =>
    simp only [List.cons_append, List.takeWhile_cons]
    rw [if_pos (h c (by simp))]
    rw [IH (fun d hd => h d (by simp [hd]))]

lemma dropWhile_append_all {p : Char → Bool} (xs ys : List Char)
    (h : ∀ c ∈ xs, p c) : (xs ++ ys).dropWhile p = ys.dropWhile p := by
  induction xs with
  | nil => simp
  | cons c cs IH =>
    simp only [List.cons_append, List.dropWhile_cons]
    rw [if_pos (h c (by simp))]
    exact IH (fun d hd => h d (by simp [hd]))

lemma take_runLen (p : Char → Bool) (s : List Char) :
    s.take (runLen p s) = s.takeWhile p := by
  obtain ⟨t, ht⟩ := (List.takeWhile_prefix (l := s) p)
  have h2 := List.take_left (s.takeWhile p) t
  rw [ht] at h2
  exact h2

lemma runLen_digits_marker (ds rest : List Char)
    (hds : ∀ c ∈ ds, Char.isDigit c) (hrest : rest.takeWhile Char.isDigit = []) :
    runLen Char.isDigit (ds ++ rest) = ds.length := by
  unfold runLen
  rw [takeWhile_append_all ds rest hds, hrest]
  simp

lemma take_one_drop (s : List Char) (i : Nat) (c : Char) (h : s[i]? = some c) :
    (s.drop i).take 1 = [c] := by
  have : (s.drop i).take 1 = (s.drop i).take 0 ++ ((s.drop i)[0]?).toList :=
    List.take_succ
  rw [this]
  simp [List.getElem?_drop, h]

lemma prefix_append_cases {T a b : List Char} (h : T <+: a ++ b) :
    T <+: a ∨ ∃ Y, T = a ++ Y ∧ Y <+: b := by
  induction a generalizing T with
  | nil => right; exact ⟨T, rfl, by simpa using h⟩
  | cons c a IH =>
    rcases T with - | ⟨d, T⟩
    · left; exact List.nil_prefix
    · rw [List.cons_append, List.cons_prefix_cons] at h
      obtain ⟨rfl, h2⟩ := h
      rcases IH h2 with h3 | ⟨Y, rfl, hY⟩
      · left; rwa [List.cons_prefix_cons, and_iff_right rfl]
      · right; exact ⟨Y, rfl, hY⟩

lemma infix_append_cases {T a b : List Char} (h : T <:+: a ++ b) :
    T <:+: a ∨ T <:+: b ∨
      ∃ X Y, T = X ++ Y ∧ X ≠ [] ∧ Y ≠ [] ∧ X <:+ a ∧ Y <+: b := by
  induction a generalizing T with
  | nil => right; left; simpa using h
  | cons c a IH =>
    rw [List.cons_append, List.infix_cons_iff] at h
    rcases h with h | h
    · rcases T with - | ⟨d, T⟩
      · left; exact List.nil_infix
      · rw [List.cons_prefix_cons] at h
        obtain ⟨rfl, h2⟩ := h
        rcases prefix_append_cases h2 with h3 | ⟨Y, rfl, hY⟩
        · left; exact (List.cons_prefix_cons.mpr ⟨rfl, h3⟩).isInfix
        · rcases Y with - | ⟨y, Y⟩
          · left; simp
          · right; right
            exact ⟨d :: a, y :: Y, rfl, by simp, by simp,
              List.suffix_refl _, hY⟩
    · rcases IH h with h3 | h3 | ⟨X, Y, rfl, hX, hY, hXa, hYb⟩
      · left; exact List.infix_cons h3
      · right; left; exact h3
      · right; right
        exact ⟨X, Y, rfl, hX, hY, hXa.trans (a.suffix_cons c), hYb⟩

/-- The per-rule obligation used by the purge-preservation argument: every
replacement the rule can emit is nonempty and consists only of replacement
vocabulary characters. -/
def okRepl (mlen : List Char → Option Nat) (repl : List Char → List Char) : Prop :=
  ∀ s n, mlen s = some (n + 1) →
    repl (s.take (n + 1)) ≠ [] ∧ ∀ c ∈ repl (s.take (n + 1)), replacementChar c = true

/-- A prefix of a scan output made only of non-vocabulary characters is a
prefix of the input. -/
lemma scan_prefix_pullback (mlen : List Char → Option Nat)
    (repl : List Char → List Char) (hok : okRepl mlen repl) :
    ∀ s T2, T2 ≠ [] → (∀ c ∈ T2, replacementChar c = false) →
      T2 <+: scanRepl mlen repl s → T2 <+: s := by
  refine listLenInd _ ?_
  intro s IH T2 hne hTC hpre
  match s with
  | [] =>
    rw [scanRepl_nil] at hpre
    exact absurd (List.prefix_nil.mp hpre) hne
  | c :: cs =>
    rcases T2 with - | ⟨d, T2⟩
    · exact absurd rfl hne
    · cases hm : mlen (c :: cs) with
      | none =>
        rw [scanRepl_skip _ _ _ _ (Or.inl hm)] at hpre
        rw [List.cons_prefix_cons] at hpre ⊢
        obtain ⟨rfl, h2⟩ := hpre
        refine ⟨rfl, ?_⟩
        rcases T2 with - | ⟨e, T2⟩
        · exact List.nil_prefix
        · exact IH cs (by simp) (e :: T2) (by simp)
            (fun x hx => hTC x (by simp [hx])) h2
      | some n =>
        cases n with
        | zero =>
          rw [scanRepl_skip _ _ _ _ (Or.inr hm)] at hpre
          rw [List.cons_prefix_cons] at hpre ⊢
          obtain ⟨rfl, h2⟩ := hpre
          refine ⟨rfl, ?_⟩
          rcases T2 with - | ⟨e, T2⟩
          · exact List.nil_prefix
          · exact IH cs (by simp) (e :: T2) (by simp)
              (fun x hx => hTC x (by simp [hx])) h2
        | succ k =>
          rw [scanRepl_match _ _ _ _ _ hm] at hpre
          obtain ⟨hne2, hmem⟩ := hok (c :: cs) k hm
          obtain ⟨r0, r1, hr⟩ := List.exists_cons_of_ne_nil hne2
          rw [hr, List.cons_append, List.cons_prefix_cons] at hpre
          obtain ⟨rfl, -⟩ := hpre
          have h1 : replacementChar d = true := hmem d (by rw [hr]; simp)
          have h2 : replacementChar d = false := hTC d (by simp)
          rw [h1] at h2
          exact absurd h2 (by simp)

/-- Purge preservation: if a nonempty string `T` made only of
non-vocabulary characters does not occur in `s`, it does not occur in the
scan output either. -/
lemma scan_preserves_absence (mlen : List Char → Option Nat)
    (repl : List Char → List Char) (hok : okRepl mlen repl)
    (T : List Char) (hT : T ≠ [])
    (hTC : ∀ c ∈ T, replacementChar c = false) :
    ∀ s, ¬ T <:+: s → ¬ T <:+: scanRepl mlen repl s := by
  refine listLenInd _ ?_
  intro s IH hs hinf
  match s with
  | [] =>
    rw [scanRepl_nil] at hinf
    exact hT (List.eq_nil_of_infix_nil hinf)
  | c :: cs =>
    cases hm : mlen (c :: cs) with
    | none =>
      rw [scanRepl_skip _ _ _ _ (Or.inl hm)] at hinf
      rcases List.infix_cons_iff.mp hinf with h | h
      · rcases T with - | ⟨d, T2⟩
        · exact hT rfl
        · rw [List.cons_prefix_cons] at h
          obtain ⟨rfl, h2⟩ := h
          rcases T2 with - | ⟨e, T2⟩
          · exact hs ⟨[], cs, rfl⟩
          · have h3 : (e :: T2) <+: cs :=
              scan_prefix_pullback mlen repl hok cs (e :: T2) (by simp)
                (fun x hx => hTC x (by simp [hx])) h2
            exact hs (List.cons_prefix_cons.mpr ⟨rfl, h3⟩).isInfix
      · exact IH cs (by simp) (fun h2 => hs (List.infix_cons h2)) h
    | some n =>
      cases n with
      | zero =>
        rw [scanRepl_skip _ _ _ _ (Or.inr hm)] at hinf
        rcases List.infix_cons_iff.mp hinf with h | h
        · rcases T with - | ⟨d, T2⟩
          · exact hT rfl
          · rw [List.cons_prefix_cons] at h
            obtain ⟨rfl, h2⟩ := h
            rcases T2 with - | ⟨e, T2⟩
            · exact hs ⟨[], cs, rfl⟩
            · have h3 : (e :: T2) <+: cs :=
                scan_prefix_pullback mlen repl hok cs (e :: T2) (by simp)
                  (fun x hx => hTC x (by simp [hx])) h2
              exact hs (List.cons_prefix_cons.mpr ⟨rfl, h3⟩).isInfix
        · exact IH cs (by simp) (fun h2 => hs (List.infix_cons h2)) h
      | succ k =>
        rw [scanRepl_match _ _ _ _ _ hm] at hinf
        obtain ⟨hne2, hmem⟩ := hok (c :: cs) k hm
        rcases infix_append_cases hinf with h | h | ⟨X, Y, hXY, hX, hY, hXr, hYp⟩
        · obtain ⟨d, T2, rfl⟩ := List.exists_cons_of_ne_nil hT
          have h1 : replacementChar d = true := hmem d (h.subset (by simp))
          have h2 : replacementChar d = false := hTC d (by simp)
          rw [h1] at h2
          exact absurd h2 (by simp)
        · refine IH ((c :: cs).drop (k + 1))
            (by simp only [List.length_drop, List.length_cons]; omega) ?_ h
          intro h2
          exact hs (h2.trans (List.drop_suffix _ _).isInfix)
        · obtain ⟨x, X2, rfl⟩ := List.exists_cons_of_ne_nil hX
          have h1 : replacementChar x = true := hmem x (hXr.subset (by simp))
          have h2 : replacementChar x = false := hTC x (by rw [hXY]; simp)
          rw [h1] at h2
          exact absurd h2 (by simp)

/-- Pullback for the literal purge scan: a prefix of the output made only
of characters of the purged string `T` itself is a prefix of the input. -/
lemma lit_prefix_pullback (T r : List Char) (hdisjr : ∀ c ∈ T, c ∉ r)
    (hr : r ≠ []) :
    ∀ s T2, T2 ≠ [] → (∀ c ∈ T2, c ∈ T) →
      T2 <+: scanRepl (litLen T) (fun _ => r) s → T2 <+: s := by
  refine listLenInd _ ?_
  intro s IH T2 hne hTs hpre
  match s with
  | [] =>
    rw [scanRepl_nil] at hpre
    exact absurd (List.prefix_nil.mp hpre) hne
  | c :: cs =>
    obtain ⟨d, T2, rfl⟩ := List.exists_cons_of_ne_nil hne
    by_cases hp : T.isPrefixOf (c :: cs)
    · obtain ⟨t0, tR, rfl⟩ : ∃ t0 tR, T = t0 :: tR := by
        rcases T with - | ⟨t0, tR⟩
        · simpa using hTs d (by simp)
        · exact ⟨t0, tR, rfl⟩
      have hm : litLen (t0 :: tR) (c :: cs) = some (tR.length + 1) := by
        simp [litLen, hp]
      rw [scanRepl_match _ _ _ _ _ hm] at hpre
      obtain ⟨r0, r1, hrr⟩ := List.exists_cons_of_ne_nil hr
      rw [hrr, List.cons_append, List.cons_prefix_cons] at hpre
      obtain ⟨rfl, -⟩ := hpre
      have h1 : d ∈ t0 :: tR := hTs d (by simp)
      have h2 : d ∉ r := hdisjr d h1
      rw [hrr] at h2
      simp at h2
    · have hm : litLen T (c :: cs) = none := by simp [litLen, hp]
      rw [scanRepl_skip _ _ _ _ (Or.inl hm)] at hpre
      rw [List.cons_prefix_cons] at hpre ⊢
      obtain ⟨rfl, h2⟩ := hpre
      refine ⟨rfl, ?_⟩
      rcases T2 with - | ⟨e, T2⟩
      · exact List.nil_prefix
      · exact IH cs (by simp) (e :: T2) (by simp)
          (fun x hx => hTs x (by simp [hx])) h2

/-- Completeness of a single literal purge: replacing every occurrence of a
nonempty `T` by a replacement sharing no character with `T` leaves a text
with no occurrence of `T` at all. -/
lemma replaceLit_removes_all (T r : List Char) (hT : T ≠ [])
    (hdisjr : ∀ c ∈ T, c ∉ r) (hr : r ≠ []) :
    ∀ s, ¬ T <:+: scanRepl (litLen T) (fun _ => r) s := by
  refine listLenInd _ ?_
  intro s IH hinf
  match s with
  | [] =>
    rw [scanRepl_nil] at hinf
    exact hT (List.eq_nil_of_infix_nil hinf)
  | c :: cs =>
    by_cases hp : T.isPrefixOf (c :: cs)
    · obtain ⟨t0, tR, hTc⟩ := List.exists_cons_of_ne_nil hT
      subst hTc
      have hm : litLen (t0 :: tR) (c :: cs) = some (tR.length + 1) := by
        simp [litLen, hp]
      rw [scanRepl_match _ _ _ _ _ hm] at hinf
      rcases infix_append_cases hinf with h | h | ⟨X, Y, hXY, hX, hY, hXr, hYp⟩
      · have h1 : t0 ∈ r := h.subset (by simp)
        exact hdisjr t0 (by simp) h1
      · exact IH _ (by simp only [List.length_drop, List.length_cons]; omega) h
      · obtain ⟨x, X2, rfl⟩ := List.exists_cons_of_ne_nil hX
        have h1 : x ∈ r := hXr.subset (by simp)
        exact hdisjr x (by rw [hXY]; simp) h1
    · have hm : litLen T (c :: cs) = none := by simp [litLen, hp]
      rw [scanRepl_skip _ _ _ _ (Or.inl hm)] at hinf
      rcases List.infix_cons_iff.mp hinf with h | h
      · obtain ⟨t0, tR, rfl⟩ := List.exists_cons_of_ne_nil hT
        rw [List.cons_prefix_cons] at h
        obtain ⟨rfl, h2⟩ := h
        rcases tR with - | ⟨e, tR⟩
        · exact hp (by simp)
        · have h3 : (e :: tR) <+: cs :=
            lit_prefix_pullback (t0 :: e :: tR) r hdisjr hr cs (e :: tR)
              (by simp) (fun x hx => by simp [hx]) h2
          rw [← List.isPrefixOf_iff_prefix] at h3
          apply hp
          simp [List.isPrefixOf, h3]
      · exact IH cs (by simp) h

/-- Preservation through an empty-pattern literal replace (JavaScript
interleaves the replacement at every position). -/
lemma replaceLit_empty_preserves (T r : List Char) (hT : T ≠ [])
    (hTC : ∀ c ∈ T, replacementChar c = false)
    (hrC : ∀ c ∈ r, replacementChar c = true) (hr : r ≠ []) :
    ∀ s, ¬ T <:+: s → ¬ T <:+: (r ++ s.flatMap (fun c => c :: r)) := by
  intro s
  induction s with
  | nil =>
    intro _ hinf
    simp only [List.flatMap_nil, List.append_nil] at hinf
    obtain ⟨t0, tR, rfl⟩ := List.exists_cons_of_ne_nil hT
    have h1 : replacementChar t0 = true := hrC t0 (hinf.subset (by simp))
    have h2 : replacementChar t0 = false := hTC t0 (by simp)
    rw [h1] at h2
    exact absurd h2 (by simp)
  | cons c cs IH =>
    intro hs hinf
    have hflat : (c :: cs).flatMap (fun c => c :: r) =
        (c :: r) ++ cs.flatMap (fun c => c :: r) := by simp
    rw [hflat, show r ++ ((c :: r) ++ cs.flatMap (fun c => c :: r)) =
      (r ++ [c]) ++ (r ++ cs.flatMap (fun c => c :: r)) by simp] at hinf
    rcases infix_append_cases hinf with h | h | ⟨X, Y, hXY, hX, hY, hXr, hYp⟩
    · -- inside r ++ [c]
      rcases infix_append_cases h with h2 | h2 | ⟨X, Y, hXY, hX, hY, hXr, hYp⟩
      · obtain ⟨t0, tR, rfl⟩ := List.exists_cons_of_ne_nil hT
        have h1 : replacementChar t0 = true := hrC t0 (h2.subset (by simp))
        have h3 : replacementChar t0 = false := hTC t0 (by simp)
        rw [h1] at h3
        exact absurd h3 (by simp)
      · -- inside [c] : T = [c]
        have hlen : T.length ≤ 1 := h2.length_le
        obtain ⟨t0, tR, rfl⟩ := List.exists_cons_of_ne_nil hT
        have : tR = [] := by
          simp only [List.length_cons] at hlen; exact List.eq_nil_of_length_eq_zero (by omega)
        subst this
        have : t0 = c := by
          have := h2.subset (a := t0) (by simp)
          simpa using this
        subst this
        exact hs ⟨[], cs, rfl⟩
      · obtain ⟨x, X2, rfl⟩ := List.exists_cons_of_ne_nil hX
        have h1 : replacementChar x = true := hrC x (hXr.subset (by simp))
        have h3 : replacementChar x = false := hTC x (by rw [hXY]; simp)
        rw [h1] at h3
        exact absurd h3 (by simp)
    · exact IH (fun h2 => hs (List.infix_cons h2)) h
    · obtain ⟨y, Y2, rfl⟩ := List.exists_cons_of_ne_nil hY
      obtain ⟨r0, r1, hrr⟩ := List.exists_cons_of_ne_nil hr
      rw [hrr, List.cons_append, List.cons_prefix_cons] at hYp
      obtain ⟨rfl, -⟩ := hYp
      have h1 : replacementChar y = true := hrC y (by rw [hrr]; simp)
      have h3 : replacementChar y = false := hTC y (by rw [hXY]; simp)
      rw [h1] at h3
      exact absurd h3 (by simp)

lemma replacementChar_digit {c : Char} (h : c.isDigit = true) :
    replacementChar c = true := by
  simp [replacementChar, h]

lemma mem_take_idx : ∀ (s : List Char) (k : Nat) (c : Char), c ∈ s.take k →
    ∃ i, i < k ∧ s[i]? = some c := by
  intro s
  induction s with
  | nil => intro k c h; simp at h
  | cons d cs IH =>
    intro k c h
    match k with
    | 0 => simp at h
    | k + 1 =>
      rw [List.take_succ_cons] at h
      rcases List.mem_cons.mp h with rfl | h2
      · exact ⟨0, by omega, by simp⟩
      · obtain ⟨i, hi, hg⟩ := IH k c h2
        exact ⟨i + 1, by omega, by simpa using hg⟩

lemma runLen_idx (p : Char → Bool) :
    ∀ (t : List Char) (j : Nat), j < runLen p t →
      ∃ c, t[j]? = some c ∧ p c = true := by
  intro t
  induction t with
  | nil => intro j h; simp [runLen] at h
  | cons d cs IH =>
    intro j h
    unfold runLen at h
    rw [List.takeWhile_cons] at h
    by_cases hp : p d
    · rw [if_pos hp] at h
      match j with
      | 0 => exact ⟨d, by simp, hp⟩
      | j + 1 =>
        simp only [List.length_cons] at h
        obtain ⟨c, hc, hpc⟩ := IH j (by unfold runLen; omega)
        exact ⟨c, by simpa using hc, hpc⟩
    · rw [if_neg hp] at h
      simp at h

/-- Characters of a `(\d{4,})(万円)` match: digits and the two unit
characters. -/
lemma matchMoney_chars {s : List Char} {k : Nat} (h : matchMoneyAt s = some k) :
    ∀ c ∈ s.take k, replacementChar c = true := by
  unfold matchMoneyAt at h
  simp only [Bool.and_eq_true, decide_eq_true_eq] at h
  split at h
  case isFalse => exact absurd h (by simp)
  case isTrue hcond =>
    obtain ⟨⟨h4, hm⟩, hy⟩ := hcond
    have hk : k = runLen Char.isDigit s + 2 := by
      simpa using h.symm
    subst hk
    intro c hc
    obtain ⟨i, hi, hg⟩ := mem_take_idx s _ c hc
    rcases show i < runLen Char.isDigit s ∨ i = runLen Char.isDigit s ∨
        i = runLen Char.isDigit s + 1 by omega with h1 | h1 | h1
    · obtain ⟨c2, hc2, hd⟩ := runLen_idx Char.isDigit s i h1
      rw [hg] at hc2
      obtain rfl : c = c2 := by simpa using hc2
      exact replacementChar_digit hd
    · subst h1
      rw [hg] at hm
      obtain rfl : c = '万' := by simpa using hm
      decide
    · subst h1
      rw [hg] at hy
      obtain rfl : c = '円' := by simpa using hy
      decide

/-- Characters of a `/20\d{2}年\d{1,2}月\d{1,2}日/` match: digits and the
three date-marker characters. -/
lemma matchFullDate_chars {s : List Char} {k : Nat}
    (h : matchFullDateAt s = some k) :
    ∀ c ∈ s.take k, (c.isDigit || c == '年' || c == '月' || c == '日') = true := by
  unfold matchFullDateAt at h
  simp only [Bool.and_eq_true, Bool.or_eq_true, decide_eq_true_eq] at h
  split at h
  case isFalse => exact absurd h (by simp)
  case isTrue hc1 =>
  obtain ⟨⟨⟨⟨h0, h1⟩, h2⟩, h3⟩, h4⟩ := hc1
  split at h
  case isFalse => exact absurd h (by simp)
  case isTrue hc2 =>
  obtain ⟨-, hm⟩ := hc2
  split at h
  case isFalse => exact absurd h (by simp)
  case isTrue hc3 =>
  obtain ⟨-, hd⟩ := hc3
  have hk : k = 5 + runLen Char.isDigit (s.drop 5) + 1 +
      runLen Char.isDigit
        (s.drop (5 + runLen Char.isDigit (s.drop 5) + 1)) + 1 := by
    simpa using h.symm
  subst hk
  intro c hc
  obtain ⟨i, hi, hg⟩ := mem_take_idx s _ c hc
  rcases show i = 0 ∨ i = 1 ∨ i = 2 ∨ i = 3 ∨ i = 4 ∨
      (5 ≤ i ∧ i < 5 + runLen Char.isDigit (s.drop 5)) ∨
      i = 5 + runLen Char.isDigit (s.drop 5) ∨
      (5 + runLen Char.isDigit (s.drop 5) + 1 ≤ i ∧
        i < 5 + runLen Char.isDigit (s.drop 5) + 1 +
          runLen Char.isDigit (s.drop (5 + runLen Char.isDigit (s.drop 5) + 1))) ∨
      i = 5 + runLen Char.isDigit (s.drop 5) + 1 +
          runLen Char.isDigit (s.drop (5 + runLen Char.isDigit (s.drop 5) + 1))
      from by omega with
    hI | hI | hI | hI | hI | ⟨hIa, hIb⟩ | hI | ⟨hIa, hIb⟩ | hI
  · subst hI; rw [hg] at h0
    obtain rfl : c = '2' := by simpa using h0
    decide
  · subst hI; rw [hg] at h1
    obtain rfl : c = '0' := by simpa using h1
    decide
  · subst hI; rw [hg] at h2
    simp only at h2
    simp [h2]
  · subst hI; rw [hg] at h3
    simp only at h3
    simp [h3]
  · subst hI; rw [hg] at h4
    obtain rfl : c = '年' := by simpa using h4
    decide
  · obtain ⟨c2, hc2, hdig⟩ :=
      runLen_idx Char.isDigit (s.drop 5) (i - 5) (by omega)
    rw [List.getElem?_drop] at hc2
    rw [show 5 + (i - 5) = i by omega, hg] at hc2
    obtain rfl : c = c2 := by simpa using hc2
    simp [hdig]
  · subst hI; rw [hg] at hm
    obtain rfl : c = '月' := by simpa using hm
    decide
  · obtain ⟨c2, hc2, hdig⟩ :=
      runLen_idx Char.isDigit (s.drop (5 + runLen Char.isDigit (s.drop 5) + 1))
        (i - (5 + runLen Char.isDigit (s.drop 5) + 1)) (by omega)
    rw [List.getElem?_drop] at hc2
    rw [show 5 + runLen Char.isDigit (s.drop 5) + 1 +
      (i - (5 + runLen Char.isDigit (s.drop 5) + 1)) = i by omega, hg] at hc2
    obtain rfl : c = c2 := by simpa using hc2
    simp [hdig]
  · subst hI; rw [hg] at hd
    obtain rfl : c = '日' := by simpa using hd
    decide

/-- A successful `firstMatch` is a nonempty selection of characters of the
scanned text. -/
lemma firstMatch_some {mlen : List Char → Option Nat} :
    ∀ m ym, firstMatch mlen m = some ym → ym ≠ [] ∧ ∀ c ∈ ym, c ∈ m := by
  intro m
  induction m with
  | nil => intro ym h; simp [firstMatch] at h
  | cons c cs IH =>
    intro ym h
    rw [firstMatch] at h
    cases hm : mlen (c :: cs) with
    | none =>
      simp only [hm] at h
      obtain ⟨h1, h2⟩ := IH ym h
      exact ⟨h1, fun x hx => by simp [h2 x hx]⟩
    | some n =>
      cases n with
      | zero =>
        simp only [hm] at h
        obtain ⟨h1, h2⟩ := IH ym h
        exact ⟨h1, fun x hx => by simp [h2 x hx]⟩
      | succ k =>
        simp only [hm, Option.some_inj] at h
        subst h
        constructor
        · simp [List.take_succ_cons]
        · exact fun x hx => List.take_subset _ _ hx

/-! ### The replacement obligations of every pipeline stage -/

lemma okRepl_const (mlen : List Char → Option Nat) (r : List Char)
    (hne : r ≠ []) (hmem : ∀ c ∈ r, replacementChar c = true) :
    okRepl mlen (fun _ => r) := fun _ _ _ => ⟨hne, hmem⟩

lemma okRepl_specific (mlen : List Char → Option Nat) :
    okRepl mlen specificRepl := by
  intro s n _
  constructor
  · unfold specificRepl; split_ifs <;> decide
  · intro c hc
    unfold specificRepl at hc
    split_ifs at hc <;> revert hc <;> revert c <;> decide

lemma okRepl_product (mlen : List Char → Option Nat) :
    okRepl mlen productRepl := by
  intro s n _
  constructor
  · unfold productRepl; split_ifs <;> decide
  · intro c hc
    unfold productRepl at hc
    split_ifs at hc <;> revert hc <;> revert c <;> decide

lemma okRepl_pct (mlen : List Char → Option Nat) : okRepl mlen pctRepl := by
  intro s n _
  constructor
  · simp only [pctRepl]; split_ifs <;> decide
  · intro c hc
    simp only [pctRepl] at hc
    split_ifs at hc <;> revert hc <;> revert c <;> decide

lemma okRepl_money : okRepl matchMoneyAt moneyRepl := by
  intro s n h
  have hchars := matchMoney_chars h
  have hsne : s ≠ [] := by
    rintro rfl
    have : matchMoneyAt ([] : List Char) = none := rfl
    rw [this] at h; exact absurd h (by simp)
  constructor
  · simp only [moneyRepl]
    split_ifs
    · decide
    · decide
    · simp [List.take_eq_nil_iff, hsne]
  · intro c hc
    simp only [moneyRepl] at hc
    split_ifs at hc
    · revert hc; revert c; decide
    · revert hc; revert c; decide
    · exact hchars c hc

lemma okRepl_fullDate : okRepl matchFullDateAt fullDateRepl := by
  intro s n h
  have hchars := matchFullDate_chars h
  have hgood : ∀ c, (c.isDigit || c == '年' || c == '月' || c == '日') = true →
      replacementChar c = true := by
    intro c hc
    simp only [Bool.or_eq_true, beq_iff_eq] at hc
    rcases hc with ((hd | rfl) | rfl) | rfl
    · exact replacementChar_digit hd
    · decide
    · decide
    · decide
  have hsne : s ≠ [] := by
    rintro rfl
    have : matchFullDateAt ([] : List Char) = none := rfl
    rw [this] at h; exact absurd h (by simp)
  unfold fullDateRepl
  cases hfm : firstMatch matchYearMonthAt (s.take (n + 1)) with
  | none =>
    constructor
    · simp [List.take_eq_nil_iff, hsne]
    · exact fun c hc => hgood c (hchars c hc)
  | some ym =>
    obtain ⟨hne, hsub⟩ := firstMatch_some _ ym hfm
    exact ⟨hne, fun c hc => hgood c (hchars c (hsub c hc))⟩

lemma intDigits_chars (d : Int) : ∀ c ∈ intDigits d, replacementChar c = true := by
  intro c hc
  unfold intDigits at hc
  split_ifs at hc
  · rcases List.mem_cons.mp hc with rfl | hc2
    · decide
    · exact replacementChar_digit (natDigits_all_digit _ c hc2)
  · exact replacementChar_digit (natDigits_all_digit _ c hc)

lemma okRepl_year (cy : Nat) (mlen : List Char → Option Nat) :
    okRepl mlen (yearRepl cy) := by
  intro s n _
  constructor
  · simp only [yearRepl]
    split_ifs <;> simp
  · intro c hc
    simp only [yearRepl] at hc
    split_ifs at hc
    · revert hc; revert c; decide
    · revert hc; revert c; decide
    · revert hc; revert c; decide
    · rcases List.mem_append.mp hc with hc2 | hc2
      · exact intDigits_chars _ c hc2
      · clear hc; revert hc2; revert c; decide
    · revert hc; revert c; decide

lemma okRepl_rules : ∀ r ∈ anonymizationRules, okRepl r.2.1 r.2.2 := by
  intro r hr
  simp only [anonymizationRules, List.mem_cons, List.not_mem_nil, or_false] at hr
  rcases hr with rfl | rfl | rfl | rfl | rfl | rfl | rfl
  · exact okRepl_const _ _ (by decide) (by decide)
  · exact okRepl_const _ _ (by decide) (by decide)
  · exact okRepl_const _ _ (by decide) (by decide)
  · exact okRepl_const _ _ (by decide) (by decide)
  · exact okRepl_specific _
  · exact okRepl_const _ _ (by decide) (by decide)
  · exact okRepl_product _

lemma genericRepl_ne_nil (cat : String) : getGenericReplacement cat ≠ [] := by
  unfold getGenericReplacement; split_ifs <;> decide

lemma genericRepl_chars (cat : String) :
    ∀ c ∈ getGenericReplacement cat, replacementChar c = true := by
  unfold getGenericReplacement; split_ifs <;> decide

lemma foldl_rules_preserves
    (rs : List (String × (List Char → Option Nat) × (List Char → List Char)))
    (hrs : ∀ r ∈ rs, okRepl r.2.1 r.2.2) (T : List Char) (hT : T ≠ [])
    (hTC : ∀ c ∈ T, replacementChar c = false) :
    ∀ s, ¬ T <:+: s →
      ¬ T <:+: rs.foldl (fun t r => scanRepl r.2.1 r.2.2 t) s := by
  induction rs with
  | nil => intro s h; simpa using h
  | cons r rs IH =>
    intro s h
    rw [List.foldl_cons]
    exact IH (fun x hx => hrs x (by simp [hx])) _
      (scan_preserves_absence _ _ (hrs r (by simp)) T hT hTC s h)

lemma stage1_fold_preserves (T : List Char) (hT : T ≠ [])
    (hTC : ∀ c ∈ T, replacementChar c = false) :
    ∀ (post : List ConfidentialRecord) (s : List Char), ¬ T <:+: s →
      ¬ T <:+: post.foldl (fun t info =>
        if info.isConfidential && !info.isPublic then
          replaceLiteral info.title (getGenericReplacement info.category) t
        else t) s := by
  intro post
  induction post with
  | nil => intro s h; simpa using h
  | cons info post IH =>
    intro s h
    rw [List.foldl_cons]
    apply IH
    by_cases hflag : (info.isConfidential && !info.isPublic) = true
    · rw [if_pos hflag]
      by_cases htitle : info.title = []
      · rw [replaceLiteral, if_pos htitle]
        exact replaceLit_empty_preserves T _ hT hTC (genericRepl_chars _)
          (genericRepl_ne_nil _) s h
      · rw [replaceLiteral, if_neg htitle]
        exact scan_preserves_absence _ _
          (okRepl_const _ _ (genericRepl_ne_nil _) (genericRepl_chars _))
          T hT hTC s h
    · rw [if_neg hflag]; exact h

lemma tail_pipeline_preserves (T : List Char) (hT : T ≠ [])
    (hTC : ∀ c ∈ T, replacementChar c = false) (cy : Nat) :
    ∀ s, ¬ T <:+: s →
      ¬ T <:+: generalizeDates cy (obscureNumbers (applyStandardRules s)) := by
  intro s h
  unfold generalizeDates obscureNumbers applyStandardRules
  apply scan_preserves_absence _ _ (okRepl_year cy _) T hT hTC
  apply scan_preserves_absence _ _ okRepl_fullDate T hT hTC
  apply scan_preserves_absence _ _ (okRepl_pct _) T hT hTC
  apply scan_preserves_absence _ _ okRepl_money T hT hTC
  exact foldl_rules_preserves _ okRepl_rules T hT hTC s h

/-! ## Claim C1 -/

/-- C1 (counterexample): the claim as stated is false.  A record whose
title coincides with the generic label chosen for it — here the title
`非公開情報` with an unknown category, whose generic replacement is the
string `非公開情報` itself — survives anonymization verbatim: the record is
eligible (`isConfidential = true`, `isPublic = false`), yet its exact title
still occurs in the output of `anonymize`. -/
theorem spec_c1_counterexample :
    ("非公開情報".toList <:+: anonymize 2025 "非公開情報".toList
      [⟨"非公開情報".toList, "other", true, false⟩]) := by decide

/-- C1 (amended): for every content, record list and current year, an
eligible confidential record (`isConfidential = true`, `isPublic = false`)
whose title is nonempty and uses no character of the pipeline's replacement
vocabulary (`replacementChar`: the generic category labels, the rules'
replacement strings, the banding and relative-date phrases, the decimal
digits and the unit/bracket characters they are glued to) never appears
verbatim in the output of `anonymize`. -/
theorem spec_c1_amended (cy : Nat) (content : List Char)
    (records : List ConfidentialRecord) (rec : ConfidentialRecord)
    (hmem : rec ∈ records) (hconf : rec.isConfidential = true)
    (hpub : rec.isPublic = false) (hne : rec.title ≠ [])
    (hsafe : ∀ c ∈ rec.title, replacementChar c = false) :
    ¬ rec.title <:+: anonymize cy content records := by
  obtain ⟨pre, post, rfl⟩ := List.append_of_mem hmem
  simp only [anonymize]
  rw [List.foldl_append, List.foldl_cons]
  rw [if_pos (by rw [hconf, hpub]; rfl)]
  apply tail_pipeline_preserves rec.title hne hsafe cy
  apply stage1_fold_preserves rec.title hne hsafe post
  rw [replaceLiteral, if_neg hne]
  apply replaceLit_removes_all rec.title (getGenericReplacement rec.category) hne
  · intro c hcT hcR
    have h1 : replacementChar c = false := hsafe c hcT
    have h2 : replacementChar c = true := genericRepl_chars _ c hcR
    rw [h1] at h2
    exact absurd h2 (by simp)
  · exact genericRepl_ne_nil _

/-- C1 (witness): the amended theorem applied at a concrete record whose
title `ＱＺ` (fullwidth letters) uses no replacement-vocabulary character. -/
theorem spec_c1_witness :
    ¬ "ＱＺ".toList <:+: anonymize 2025 "ＱＺの売上とＱＺ".toList
      [⟨"ＱＺ".toList, "strategic", true, false⟩] :=
  spec_c1_amended 2025 "ＱＺの売上とＱＺ".toList
    [⟨"ＱＺ".toList, "strategic", true, false⟩]
    ⟨"ＱＺ".toList, "strategic", true, false⟩
    (by simp) rfl rfl (by decide) (by decide)

/-! ## Claim C2 -/

/-- C2 (counterexample): the claim as stated is false.  Anonymizing
`a@b.cd` yields `contact@example.com`, and the email rule's pattern finds
one further match in that already-anonymized text, not zero. -/
theorem spec_c2_counterexample :
    countM matchEmailAt (anonymize 2025 "a@b.cd".toList []) = 1 := by decide

/-- C2 (amended): of the seven standing rules, five (companyName,
personName, phone, specificNumbers, address) find no match in any
replacement string of the rule table; the email and productName
replacements do re-trigger their own rules, but every replacement string is
a fixed point of a full second pass of the seven rules, so re-running the
rule stage on replacement vocabulary changes nothing. -/
theorem spec_c2_amended :
    (∀ v ∈ replacementVocab, applyStandardRules v = v) ∧
    (∀ v ∈ replacementVocab,
      countM matchCompanyAt v = 0 ∧ countM matchPersonAt v = 0 ∧
      countM matchPhoneAt v = 0 ∧ countM matchSpecificAt v = 0 ∧
      countM matchAddressAt v = 0) := by decide

/-- C2 (witness): the amended theorem applied to the email rule's
replacement string. -/
theorem spec_c2_witness :
    applyStandardRules "contact@example.com".toList =
      "contact@example.com".toList :=
  spec_c2_amended.1 "contact@example.com".toList (by decide)

/-! ## Claims C3 and C6: numeric banding -/

lemma countMoney_zero_short (ds : List Char)
    (hds : ∀ c ∈ ds, Char.isDigit c) (hlen : ds.length ≤ 3) :
    countM matchMoneyAt (ds ++ ['%']) = 0 := by
  induction ds with
  | nil => rw [List.nil_append, countM_skip _ _ _ (Or.inl (by decide)), countM_nil]
  | cons d ds IH =>
    rw [List.cons_append]
    have hrun : runLen Char.isDigit (d :: (ds ++ ['%'])) = ds.length + 1 := by
      have h2 := runLen_digits_marker (d :: ds) ['%'] hds (by decide)
      rw [List.cons_append] at h2
      simpa using h2
    have hm : matchMoneyAt (d :: (ds ++ ['%'])) = none := by
      have hlt : ¬ (4 ≤ runLen Char.isDigit (d :: (ds ++ ['%']))) := by
        rw [hrun]; simp only [List.length_cons] at hlen; omega
      simp [matchMoneyAt, hlt]
    rw [countM_skip _ _ _ (Or.inl hm)]
    exact IH (fun c hc => hds c (by simp [hc]))
      (by simp only [List.length_cons] at hlen; omega)

lemma obscure_pct_eval (n : Nat) (h10 : 10 ≤ n) (h999 : n ≤ 999) :
    obscureNumbers (natDigits n ++ ['%']) = pctBandString n := by
  have hds : ∀ c ∈ natDigits n, Char.isDigit c := natDigits_all_digit n
  have hlen2 : 2 ≤ (natDigits n).length := natDigits_len_ge 1 n (by simpa using h10)
  have hlen3 : (natDigits n).length ≤ 3 :=
    natDigits_len_le 3 n (by omega) (by omega)
  unfold obscureNumbers
  rw [scan_id_of_count_zero _ _ _ (countMoney_zero_short (natDigits n) hds hlen3)]
  have hr : runLen Char.isDigit (natDigits n ++ ['%']) = (natDigits n).length :=
    runLen_digits_marker _ _ hds (by decide)
  have hg : (natDigits n ++ ['%'])[(natDigits n).length]? = some '%' := by
    rw [List.getElem?_append_right (Nat.le_refl _)]
    simp
  have hpct : matchPctAt (natDigits n ++ ['%']) =
      some ((natDigits n).length + 1) := by
    unfold matchPctAt
    rw [hr]
    rcases (by omega : (natDigits n).length = 2 ∨ (natDigits n).length = 3) with
      hL | hL <;> rw [hL] <;> rw [hL] at hg <;> simp [hg]
  obtain ⟨d, ds, hcons⟩ := List.exists_cons_of_ne_nil (natDigits_ne_nil n)
  have hcons2 : natDigits n ++ ['%'] = d :: (ds ++ ['%']) := by
    rw [hcons, List.cons_append]
  rw [hcons2] at hpct ⊢
  rw [scanRepl_match _ _ _ _ _ hpct]
  have hlen_eq : (d :: (ds ++ ['%'])).length = (natDigits n).length + 1 := by
    rw [← hcons2]; simp
  rw [show ((natDigits n).length + 1) = (d :: (ds ++ ['%'])).length from hlen_eq.symm]
  rw [List.take_length, List.drop_length, scanRepl_nil, List.append_nil]
  rw [← hcons2]
  simp only [pctRepl, pctBandString]
  rw [takeWhile_append_all _ _ hds, show List.takeWhile Char.isDigit ['%'] = []
    from rfl, List.append_nil, parseDigits_natDigits]
  split_ifs <;> rfl

lemma obscure_money_eval (a : Nat) (h : 1000 ≤ a) :
    obscureNumbers (natDigits a ++ "万円".toList) =
      (if 10000 ≤ a then "数億円".toList else "数千万円".toList) := by
  have hds : ∀ c ∈ natDigits a, Char.isDigit c := natDigits_all_digit a
  have hlen : 4 ≤ (natDigits a).length := natDigits_len_ge 3 a (by simpa using h)
  have hr : runLen Char.isDigit (natDigits a ++ "万円".toList) =
      (natDigits a).length := runLen_digits_marker _ _ hds (by decide)
  have hg1 : (natDigits a ++ "万円".toList)[(natDigits a).length]? = some '万' := by
    rw [List.getElem?_append_right (Nat.le_refl _)]
    simp
  have hg2 : (natDigits a ++ "万円".toList)[(natDigits a).length + 1]? =
      some '円' := by
    rw [List.getElem?_append_right (by omega)]
    rw [show (natDigits a).length + 1 - (natDigits a).length = 1 by omega]
    rfl
  have hm : matchMoneyAt (natDigits a ++ "万円".toList) =
      some ((natDigits a).length + 2) := by
    simp only [matchMoneyAt]
    rw [hr, hg1, hg2]
    simp [hlen]
  obtain ⟨d, ds, hcons⟩ := List.exists_cons_of_ne_nil (natDigits_ne_nil a)
  have hcons2 : natDigits a ++ "万円".toList = d :: (ds ++ "万円".toList) := by
    rw [hcons, List.cons_append]
  unfold obscureNumbers
  rw [hcons2] at hm ⊢
  rw [show ((natDigits a).length + 2) = (natDigits a).length + 1 + 1 from rfl] at hm
  rw [scanRepl_match _ _ _ _ _ hm]
  have hlen_eq : (d :: (ds ++ "万円".toList)).length = (natDigits a).length + 1 + 1 := by
    rw [← hcons2]; simp [List.length_append]
  rw [show ((natDigits a).length + 1 + 1) = (d :: (ds ++ "万円".toList)).length
    from hlen_eq.symm]
  rw [List.take_length, List.drop_length, scanRepl_nil, List.append_nil]
  rw [← hcons2]
  simp only [moneyRepl]
  rw [takeWhile_append_all _ _ hds, show List.takeWhile Char.isDigit "万円".toList = []
    from rfl, List.append_nil, parseDigits_natDigits]
  split_ifs with h1 h2 <;>
    first
      | rw [scan_id_of_count_zero _ _ _ (by decide)]
      | omega

/-- C3 (counterexample): the claim as stated is false on the input `5%`:
the percentage pattern requires two or three integer digits, so the
one-digit token `5%` is not matched and is returned unchanged — it does not
become `10%未満`. -/
theorem spec_c3_counterexample :
    obscureNumbers "5%".toList ≠ "10%未満".toList := by decide

/-- C3 (amended): the four multi-digit examples band exactly as the table
states (`85%` → `80%以上`, `55%` → `50%以上`, `35%` → `約30-50%`,
`15%` → `10%以上`), and in general every percentage token whose integer
part has two or three digits is banded by its integer part into the
five-range table; but a one-digit token such as `5%` is left unchanged (the
`10%未満` band is reachable only through leading zeros, e.g. `09%`). -/
theorem spec_c3_amended :
    obscureNumbers "85%".toList = "80%以上".toList ∧
    obscureNumbers "55%".toList = "50%以上".toList ∧
    obscureNumbers "35%".toList = "約30-50%".toList ∧
    obscureNumbers "15%".toList = "10%以上".toList ∧
    obscureNumbers "5%".toList = "5%".toList ∧
    obscureNumbers "09%".toList = "10%未満".toList ∧
    (∀ n : Nat, 10 ≤ n → n ≤ 999 →
      obscureNumbers (natDigits n ++ ['%']) = pctBandString n) := by
  refine ⟨by decide, by decide, by decide, by decide, by decide, by decide, ?_⟩
  intro n h1 h2
  exact obscure_pct_eval n h1 h2

/-- C3 (witness): the amended theorem's general banding statement applied
at `n = 42`. -/
theorem spec_c3_witness :
    obscureNumbers (natDigits 42 ++ ['%']) = pctBandString 42 :=
  spec_c3_amended.2.2.2.2.2.2 42 (by decide) (by decide)

/-! ## Claim C4 -/

/-- C4 (counterexample): the claim as stated is false.  With current year
2025, `generalizeDates` does not map `2024年3月15日` to `2024年3月`: after
the truncation pass the second pass relativizes the remaining year token,
producing `昨年3月`. -/
theorem spec_c4_counterexample :
    generalizeDates 2025 "2024年3月15日".toList ≠ "2024年3月".toList := by decide

/-- C4 (amended): with current year 2025, a full date is truncated to
year–month and its year is then further relativized
(`2024年3月15日` → `昨年3月`); the bare token `2023年` (difference two)
becomes `一昨年` (the year before last), not `2年前`; and `2025年` → `今年`
as claimed.  Differences of three to five years do yield `N年前`
(`2020年` → `5年前`), and larger ones `数年前` (`2019年` → `数年前`). -/
theorem spec_c4_amended :
    generalizeDates 2025 "2024年3月15日".toList = "昨年3月".toList ∧
    generalizeDates 2025 "2023年".toList = "一昨年".toList ∧
    generalizeDates 2025 "2025年".toList = "今年".toList ∧
    generalizeDates 2025 "2020年".toList = "5年前".toList ∧
    generalizeDates 2025 "2019年".toList = "数年前".toList := by decide

/-! ## Claim C9 -/

/-- C9 (confirmed): `generateAnonymizationReport` never reads its
`anonymized` argument — the report is computed from `original` alone, so
any two second arguments yield identical reports. -/
theorem spec_c9_report_ignores_anonymized
    (original a1 a2 : List Char) :
    generateAnonymizationReport original a1 =
      generateAnonymizationReport original a2 := rfl

/-! ## Claim C6 -/

/-- C6 (confirmed): monetary banding is monotone.  For amounts
`1000 ≤ a1 < a2` written in plain decimal (four or more digits) before
`万円`, the label produced for `a2` never ranks below the label produced
for `a1`: both thresholds 1000 and 10000 are crossed upward only. -/
theorem spec_c6_monotone (a1 a2 : Nat) (h1 : 1000 ≤ a1) (h12 : a1 < a2) :
    labelRank (obscureNumbers (natDigits a1 ++ "万円".toList)) ≤
      labelRank (obscureNumbers (natDigits a2 ++ "万円".toList)) := by
  rw [obscure_money_eval a1 h1, obscure_money_eval a2 (by omega)]
  have hL : ∀ a : Nat,
      labelRank (if 10000 ≤ a then "数億円".toList else "数千万円".toList) =
        if 10000 ≤ a then 2 else 1 := by
    intro a; split_ifs <;> decide
  rw [hL, hL]
  split_ifs <;> omega

/-- C6 (witness): the theorem applied at the concrete pair 5000 < 20000,
which crosses the 10000 boundary. -/
theorem spec_c6_witness :
    labelRank (obscureNumbers (natDigits 5000 ++ "万円".toList)) ≤
      labelRank (obscureNumbers (natDigits 20000 ++ "万円".toList)) :=
  spec_c6_monotone 5000 20000 (by decide) (by decide)

/-! ## Claim C5 -/

/-- C5 (confirmed): for any text with exactly one email-rule match, exactly
one phone-rule match and no match of the other five standing rules, the
report counts two changes and lists exactly `email: 1件` and `phone: 1件`,
in rule-table order. -/
theorem spec_c5_report (s a : List Char)
    (hcmp : countM matchCompanyAt s = 0) (hper : countM matchPersonAt s = 0)
    (heml : countM matchEmailAt s = 1) (hphn : countM matchPhoneAt s = 1)
    (hspc : countM matchSpecificAt s = 0) (hadr : countM matchAddressAt s = 0)
    (hprd : countM matchProductAt s = 0) :
    (generateAnonymizationReport s a).changedCount = 2 ∧
    (generateAnonymizationReport s a).removedInfo =
      ["email: 1件".toList, "phone: 1件".toList] := by
  unfold generateAnonymizationReport
  simp only [anonymizationRules, List.foldl_cons, List.foldl_nil]
  simp only [hcmp, hper, heml, hphn, hspc, hadr, hprd]
  exact ⟨by decide, by decide⟩

/-- C5 (witness): the theorem applied to the concrete text
`a@b.cd 03-1234-5678`, which has exactly one email and one phone match. -/
theorem spec_c5_witness :
    (generateAnonymizationReport "a@b.cd 03-1234-5678".toList []).changedCount = 2 ∧
    (generateAnonymizationReport "a@b.cd 03-1234-5678".toList []).removedInfo =
      ["email: 1件".toList, "phone: 1件".toList] :=
  spec_c5_report "a@b.cd 03-1234-5678".toList [] (by decide) (by decide)
    (by decide) (by decide) (by decide) (by decide) (by decide)

/-! ## Claim C7 -/

/-- C7 (confirmed): a text containing the keyword `売上` and none of the
other thirteen high-risk keywords of the rule table, passing the monetary
test (e.g. by a `1億円` phrase) and the percentage test (e.g. by `50%`),
containing no full date, and containing exactly two bracket-quoted spans,
scores exactly 10 + 20 + 10 + 10 = 50 and is classified `high`.  (The
source's keyword list has fourteen entries, not twelve as the
specification's scorer section counts.) -/
theorem spec_c7_risk (s : List Char)
    (hk01 : strIncludes "売上".toList s = true)
    (hk02 : strIncludes "利益".toList s = false)
    (hk03 : strIncludes "収益".toList s = false)
    (hk04 : strIncludes "損失".toList s = false)
    (hk05 : strIncludes "戦略".toList s = false)
    (hk06 : strIncludes "計画".toList s = false)
    (hk07 : strIncludes "開発中".toList s = false)
    (hk08 : strIncludes "未公開".toList s = false)
    (hk09 : strIncludes "顧客リスト".toList s = false)
    (hk10 : strIncludes "取引先".toList s = false)
    (hk11 : strIncludes "契約".toList s = false)
    (hk12 : strIncludes "特許".toList s = false)
    (hk13 : strIncludes "技術".toList s = false)
    (hk14 : strIncludes "ノウハウ".toList s = false)
    (hmon : testM matchMoneyTestAt s = true)
    (hpct : testM matchPctTestAt s = true)
    (hdat : testM matchFullDateAt s = false)
    (hbrk : countM matchBracketAt s = 2) :
    anonymizationScore s = 50 ∧ determineAnonymizationLevel s = "high" := by
  have hscore : anonymizationScore s = 50 := by
    unfold anonymizationScore
    simp only [highRiskKeywords, List.foldl_cons, List.foldl_nil]
    simp only [hk01, hk02, hk03, hk04, hk05, hk06, hk07, hk08, hk09, hk10,
      hk11, hk12, hk13, hk14, hmon, hpct, hdat, hbrk]
    decide
  refine ⟨hscore, ?_⟩
  unfold determineAnonymizationLevel
  rw [hscore]
  decide

/-- C7 (witness): the theorem applied to the concrete text
`売上は1億円で50%です「A」「B」`. -/
theorem spec_c7_witness :
    anonymizationScore "売上は1億円で50%です「A」「B」".toList = 50 ∧
    determineAnonymizationLevel "売上は1億円で50%です「A」「B」".toList = "high" :=
  spec_c7_risk "売上は1億円で50%です「A」「B」".toList (by decide) (by decide)
    (by decide) (by decide) (by decide) (by decide) (by decide) (by decide)
    (by decide) (by decide) (by decide) (by decide) (by decide) (by decide)
    (by decide) (by decide) (by decide) (by decide)

/-! ## Claim C8 -/

lemma foldl_rules_id
    (rs : List (String × (List Char → Option Nat) × (List Char → List Char)))
    (s : List Char) (h : ∀ r ∈ rs, countM r.2.1 s = 0) :
    rs.foldl (fun t r => scanRepl r.2.1 r.2.2 t) s = s := by
  induction rs with
  | nil => rfl
  | cons r rs IH =>
    rw [List.foldl_cons, scan_id_of_count_zero _ _ _ (h r (by simp))]
    exact IH (fun x hx => h x (by simp [hx]))

/-- C8 (confirmed): the embedded pipeline functions are total Lean
functions (they terminate on every input by construction, and no step can
fail), `determineAnonymizationLevel` always returns one of its three
levels, and every transform degrades to the identity when its patterns find
nothing: `obscureNumbers` and `generalizeDates` return their input
unchanged when their scans find no match, and `anonymize` with an empty
record list and no rule, numeric or date match returns the content
unchanged. -/
theorem spec_c8_no_failure :
    (∀ s : List Char, determineAnonymizationLevel s = "high" ∨
      determineAnonymizationLevel s = "medium" ∨
      determineAnonymizationLevel s = "low") ∧
    (∀ s : List Char, countM matchMoneyAt s = 0 → countM matchPctAt s = 0 →
      obscureNumbers s = s) ∧
    (∀ (cy : Nat) (s : List Char), countM matchFullDateAt s = 0 →
      countM matchYearAt s = 0 → generalizeDates cy s = s) ∧
    (∀ (cy : Nat) (s : List Char),
      (∀ r ∈ anonymizationRules, countM r.2.1 s = 0) →
      countM matchMoneyAt s = 0 → countM matchPctAt s = 0 →
      countM matchFullDateAt s = 0 → countM matchYearAt s = 0 →
      anonymize cy s [] = s) := by
  refine ⟨?_, ?_, ?_, ?_⟩
  · intro s
    unfold determineAnonymizationLevel
    split_ifs <;> simp
  · intro s h1 h2
    unfold obscureNumbers
    rw [scan_id_of_count_zero _ _ _ h1, scan_id_of_count_zero _ _ _ h2]
  · intro cy s h1 h2
    unfold generalizeDates
    rw [scan_id_of_count_zero _ _ _ h1, scan_id_of_count_zero _ _ _ h2]
  · intro cy s hr h1 h2 h3 h4
    unfold anonymize
    simp only [List.foldl_nil]
    unfold applyStandardRules generalizeDates obscureNumbers
    rw [foldl_rules_id _ _ hr, scan_id_of_count_zero _ _ _ h1,
      scan_id_of_count_zero _ _ _ h2, scan_id_of_count_zero _ _ _ h3,
      scan_id_of_count_zero _ _ _ h4]

/-- C8 (witness): the no-op conjunct applied to the concrete non-matching
text `hello world` with an empty record list. -/
theorem spec_c8_witness : anonymize 2025 "hello world".toList [] =
    "hello world".toList :=
  spec_c8_no_failure.2.2.2 2025 "hello world".toList (by decide) (by decide)
    (by decide) (by decide) (by decide)

/-! ## Claim C10 -/

lemma dropWhile_key_colon (key : List Char) (rest : List Char)
    (hkey : ∀ c ∈ key, c ≠ ':') :
    (key ++ ':' :: rest).dropWhile (fun ch => ch != ':') = ':' :: rest := by
  rw [dropWhile_append_all _ _ (fun c hc => by simp [hkey c hc])]
  simp

lemma entryCount_entry (key : List Char) (c : Nat)
    (hkey : ∀ ch ∈ key, ch ≠ ':') :
    entryCount (key ++ ": ".toList ++ natDigits c ++ "件".toList) = c := by
  unfold entryCount
  have hshape : key ++ ": ".toList ++ natDigits c ++ "件".toList =
      key ++ ':' :: (' ' :: (natDigits c ++ "件".toList)) := by simp
  rw [hshape, dropWhile_key_colon key _ hkey]
  rw [show (':' :: (' ' :: (natDigits c ++ "件".toList))).drop 2 =
    natDigits c ++ "件".toList from rfl]
  rw [takeWhile_append_all _ _ (natDigits_all_digit c)]
  rw [show List.takeWhile Char.isDigit "件".toList = [] from rfl, List.append_nil,
    parseDigits_natDigits]

lemma foldl_sum_inv
    (g : Nat × List (List Char) →
      (String × (List Char → Option Nat) × (List Char → List Char)) →
      Nat × List (List Char))
    (rs : List (String × (List Char → Option Nat) × (List Char → List Char)))
    (hg : ∀ acc r, r ∈ rs → g acc r = acc ∨
      ∃ c e, 0 < c ∧ entryCount e = c ∧ g acc r = (acc.1 + c, acc.2 ++ [e])) :
    ∀ acc : Nat × List (List Char),
      acc.1 = (acc.2.map entryCount).sum → (acc.2 = [] ↔ acc.1 = 0) →
      ((rs.foldl g acc).1 = ((rs.foldl g acc).2.map entryCount).sum ∧
       ((rs.foldl g acc).2 = [] ↔ (rs.foldl g acc).1 = 0)) := by
  induction rs with
  | nil => intro acc h1 h2; exact ⟨h1, h2⟩
  | cons r rs IH =>
    intro acc h1 h2
    rw [List.foldl_cons]
    apply IH (fun acc2 r2 hr2 => hg acc2 r2 (by simp [hr2]))
    · rcases hg acc r (by simp) with he | ⟨c, e, hc, hce, he⟩
      · rw [he]; exact h1
      · rw [he]
        simp only [List.map_append, List.sum_append, List.map_cons,
          List.map_nil, List.sum_cons, List.sum_nil, hce]
        omega
    · rcases hg acc r (by simp) with he | ⟨c, e, hc, hce, he⟩
      · rw [he]; exact h2
      · rw [he]
        constructor
        · intro hx; exact absurd hx (by simp)
        · intro hx; omega

/-- C10 (confirmed): in every report, `changedCount` equals the sum of the
per-rule counts printed in the `"<ruleKey>: <n>件"` entries of
`removedInfo`, and `removedInfo` is empty exactly when `changedCount` is
zero. -/
theorem spec_c10_report_consistent (original anonymized : List Char) :
    (generateAnonymizationReport original anonymized).changedCount =
      ((generateAnonymizationReport original anonymized).removedInfo.map
        entryCount).sum ∧
    ((generateAnonymizationReport original anonymized).removedInfo = [] ↔
      (generateAnonymizationReport original anonymized).changedCount = 0) := by
  have hg : ∀ (acc : Nat × List (List Char))
      (r : String × (List Char → Option Nat) × (List Char → List Char)),
      r ∈ anonymizationRules →
      (let c := countM r.2.1 original
       if 0 < c then
        (acc.1 + c,
          acc.2 ++ [r.1.toList ++ ": ".toList ++ natDigits c ++ "件".toList])
       else acc) = acc ∨
      ∃ c e, 0 < c ∧ entryCount e = c ∧
        (let c := countM r.2.1 original
         if 0 < c then
          (acc.1 + c,
            acc.2 ++ [r.1.toList ++ ": ".toList ++ natDigits c ++ "件".toList])
         else acc) = (acc.1 + c, acc.2 ++ [e]) := by
    intro acc r hr
    by_cases hc : 0 < countM r.2.1 original
    · right
      refine ⟨countM r.2.1 original,
        r.1.toList ++ ": ".toList ++ natDigits (countM r.2.1 original) ++
          "件".toList, hc, ?_, by simp [hc]⟩
      have hkey : ∀ ch ∈ (r.1 : String).toList, ch ≠ ':' := by
        simp only [anonymizationRules, List.mem_cons, List.not_mem_nil,
          or_false] at hr
        rcases hr with rfl | rfl | rfl | rfl | rfl | rfl | rfl <;> decide
      exact entryCount_entry _ _ hkey
    · left; simp [hc]
  exact foldl_sum_inv _ anonymizationRules hg (0, []) rfl (by simp)
